import Mathlib

/-!
Shallow embedding of the crossword CSP solver in `generate.py`
(class `CrosswordCreator`): node consistency, arc consistency (AC-3),
the consistency predicate, the MRV/degree and least-constraining-value
heuristics, and backtracking search.

Python dictionaries and sets are modelled as association lists and lists;
iteration order follows insertion order (dict semantics) resp. a fixed
list order standing for the arbitrary set order.  Words are lists of
characters; out-of-range indexing (which would raise in Python) is
totalized with a default character.
-/

namespace CrosswordCSP

/-- Modelled from the spec: `crossword.py` is not part of `src/`.  A slot
variable per spec section 3: starting cell `(row, col)`, a direction
(`true` = ACROSS, `false` = DOWN) and a length; structural equality over
the fields. -/
structure Variable where
  row : Nat
  col : Nat
  across : Bool
  length : Nat
deriving DecidableEq, Repr

/-- A candidate word, as its list of characters. -/
abbrev Word := List Char

/-- Character of `w` at position `i` (`w[i]` in Python); totalized with a
default blank for out-of-range access, which in Python would raise. -/
def charAt (w : Word) (i : Nat) : Char := w.getD i ' '

/-- Modelled from the spec: the constraint-graph provider of spec section 6
(`crossword.py`, not part of `src/`): the enumerable variable set, the
vocabulary, and the overlap partial function returning the index pair
`(i, j)` for crossing slots and the absence value otherwise. -/
structure Crossword where
  vars : List Variable
  words : List Word
  overlaps : Variable → Variable → Option (Nat × Nat)

/-- Modelled from the spec (section 3): the derived neighbor relation,
`y` is a neighbor of `x` iff `y` is another variable for which the
overlap relation is defined. -/
def Crossword.neighbors (c : Crossword) (x : Variable) : List Variable :=
  c.vars.filter (fun y => decide (y ≠ x) && (c.overlaps x y).isSome)

/-- The domain store `self.domains`: an association list mapping each
variable to its current list of candidate words (a Python dict of sets). -/
abbrev Domains := List (Variable × List Word)

/-- Dictionary read `self.domains[v]`, with `[]` for a missing key. -/
def dlookup : Domains → Variable → List Word
  | [], _ => []
  | p :: rest, v => if p.1 = v then p.2 else dlookup rest v

/-- In-place replacement of the set stored for key `v` (the effect of
mutating `self.domains[v]`); no change when the key is absent. -/
def dupdate : Domains → Variable → List Word → Domains
  | [], _, _ => []
  | p :: rest, v, ws => if p.1 = v then (p.1, ws) :: rest else p :: dupdate rest v ws

/-- Total number of stored candidate words, the termination measure for
AC-3. -/
def totalSize (d : Domains) : Nat := (d.map (fun p => p.2.length)).sum

/-- Source `CrosswordCreator.__init__`: every variable starts with a copy of the
full vocabulary. -/
def initDomains (c : Crossword) : Domains := c.vars.map (fun v => (v, c.words))

/-- Source `CrosswordCreator.enforce_node_consistency`: drop from each variable's
domain every word whose length differs from the variable's length. -/
def enforce_node_consistency (d : Domains) : Domains :=
  d.map (fun p => (p.1, p.2.filter (fun w => decide (w.length = p.1.length))))

/-- Source `CrosswordCreator.revise(x, y)`: if the overlap for `(x, y)` is absent,
no change and `false`; otherwise keep in `domains[x]` exactly the words
having a supporting word in `domains[y]` that agrees at the overlap
indices and differs from them, reporting `true` iff something was
removed. -/
def revise (c : Crossword) (d : Domains) (x y : Variable) : Domains × Bool :=
  match c.overlaps x y with
  | none => (d, false)
  | some (i, j) =>
    let old := dlookup d x
    let domY := dlookup d y
    let kept := old.filter
      (fun wx => domY.any (fun wy => decide (charAt wx i = charAt wy j) && decide (wx ≠ wy)))
    (dupdate d x kept, decide (kept.length ≠ old.length))

theorem dlookup_dupdate_ne (d : Domains) (x v : Variable) (ws : List Word)
    (h : v ≠ x) : dlookup (dupdate d x ws) v = dlookup d v := by
  induction d with
  | nil => rfl
  | cons p rest ih =>
    by_cases hp : p.1 = x
    · have hv : ¬ p.1 = v := fun hh => h (hh ▸ hp)
      rw [dupdate, if_pos hp, dlookup, if_neg hv, dlookup, if_neg hv]
    · rw [dupdate, if_neg hp, dlookup, dlookup]
      by_cases hv : p.1 = v
      · rw [if_pos hv, if_pos hv]
      · rw [if_neg hv, if_neg hv, ih]

theorem dlookup_dupdate_self (d : Domains) (x : Variable) (ws : List Word)
    (hk : dlookup d x ≠ []) : dlookup (dupdate d x ws) x = ws := by
  induction d with
  | nil => simp [dlookup] at hk
  | cons p rest ih =>
    by_cases hp : p.1 = x
    · rw [dupdate, if_pos hp, dlookup, if_pos hp]
    · rw [dlookup, if_neg hp] at hk
      rw [dupdate, if_neg hp, dlookup, if_neg hp, ih hk]

theorem totalSize_dupdate_lt (d : Domains) (x : Variable) (ws : List Word)
    (h : ws.length < (dlookup d x).length) :
    totalSize (dupdate d x ws) < totalSize d := by
  induction d with
  | nil => simp [dlookup] at h
  | cons p rest ih =>
    by_cases hp : p.1 = x
    · rw [dlookup, if_pos hp] at h
      rw [dupdate, if_pos hp]
      simp only [totalSize, List.map_cons, List.sum_cons]
      omega
    · rw [dlookup, if_neg hp] at h
      have := ih h
      rw [dupdate, if_neg hp]
      simp only [totalSize, List.map_cons, List.sum_cons] at this ⊢
      omega

theorem revise_totalSize_lt (c : Crossword) (d : Domains) (x y : Variable)
    (h : (revise c d x y).2 = true) :
    totalSize (revise c d x y).1 < totalSize d := by
  unfold revise at *
  cases hov : c.overlaps x y with
  | none => simp [hov] at h
  | some ij =>
    obtain ⟨i, j⟩ := ij
    simp only [hov] at h ⊢
    simp only [decide_eq_true_eq] at h
    have hle : ((dlookup d x).filter
        (fun wx => (dlookup d y).any
          (fun wy => decide (charAt wx i = charAt wy j) && decide (wx ≠ wy)))).length ≤
        (dlookup d x).length := List.length_filter_le _ _
    exact totalSize_dupdate_lt d x _ (by omega)

/-- Source `CrosswordCreator.ac3` worklist loop: pop the front arc, revise it; on a
revision that empties the revised domain fail at once, otherwise
re-enqueue `(z, x)` for every neighbor `z` of `x` other than `y`. -/
def ac3Aux (c : Crossword) (d : Domains) (arcs : List (Variable × Variable)) :
    Domains × Bool :=
  match arcs with
  | [] => (d, true)
  | (x, y) :: rest =>
    if h : (revise c d x y).2 then
      if (dlookup (revise c d x y).1 x).isEmpty then ((revise c d x y).1, false)
      else ac3Aux c (revise c d x y).1
        (rest ++ ((c.neighbors x).erase y).map (fun z => (z, x)))
    else ac3Aux c d rest
termination_by (totalSize d, arcs.length)
decreasing_by
  · exact Prod.Lex.left _ _ (revise_totalSize_lt c d x y h)
  · exact Prod.Lex.right _ (Nat.lt_succ_self _)

/-- Source `CrosswordCreator.ac3`: when no arc list is supplied, start from every
arc `(x, y)` with `x` a domain key and `y` a neighbor of `x`. -/
def ac3 (c : Crossword) (d : Domains) (arcs : Option (List (Variable × Variable))) :
    Domains × Bool :=
  match arcs with
  | some l => ac3Aux c d l
  | none => ac3Aux c d
      ((d.map Prod.fst).flatMap (fun x => (c.neighbors x).map (fun y => (x, y))))

/-- A (possibly incomplete) assignment: the Python dict `variable → word`,
as an association list in insertion order. -/
abbrev Assignment := List (Variable × Word)

/-- Dictionary read `assignment[v]` / `v in assignment`. -/
def alookup : Assignment → Variable → Option Word
  | [], _ => none
  | p :: rest, v => if p.1 = v then some p.2 else alookup rest v

/-- Membership test `v in assignment`. -/
def acontains (a : Assignment) (v : Variable) : Bool := (alookup a v).isSome

/-- Dictionary write `assignment[v] = w`: overwrite in place when the key
is present, append otherwise. -/
def aset : Assignment → Variable → Word → Assignment
  | [], x, w => [(x, w)]
  | p :: rest, x, w => if p.1 = x then (x, w) :: rest else p :: aset rest x w

/-- Source `CrosswordCreator.assignment_complete`: the assignment has as many
entries as there are variables. -/
def assignment_complete (c : Crossword) (a : Assignment) : Bool :=
  decide (a.length = c.vars.length)

/-- Source `CrosswordCreator.consistent`: all assigned words pairwise distinct
(`len(set(values)) == len(assignment)`), every word of the length of its
variable, and every assigned pair of neighbors agreeing at its overlap
indices with distinct words. -/
def consistent (c : Crossword) (a : Assignment) : Bool :=
  decide ((a.map Prod.snd).dedup.length = a.length) &&
  a.all (fun p => decide (p.2.length = p.1.length)) &&
  a.all (fun p =>
    (c.neighbors p.1).all (fun v2 =>
      match alookup a v2 with
      | none => true
      | some w2 =>
        match c.overlaps p.1 v2 with
        | none => true
        | some (i, j) => decide (charAt p.2 i = charAt w2 j) && decide (p.2 ≠ w2)))

/-- The least-constraining-value score computed by
`CrosswordCreator.order_domain_values`: over all neighbors of `x` with a
defined overlap, the number of neighbor candidates disagreeing with `wx`
at the overlap indices. -/
def conflictCount (c : Crossword) (d : Domains) (x : Variable) (wx : Word) : Nat :=
  ((c.neighbors x).map (fun nb =>
    match c.overlaps x nb with
    | none => 0
    | some (i, j) =>
      ((dlookup d nb).filter (fun wy => decide (charAt wx i ≠ charAt wy j))).length)).sum

/-- Source `CrosswordCreator.order_domain_values`: the domain of `x` sorted
(stably, matching Python's `sorted`) by ascending conflict score; the
`assignment` argument is accepted and ignored, as in the source. -/
def order_domain_values (c : Crossword) (d : Domains) (x : Variable)
    (_a : Assignment) : List Word :=
  List.insertionSort (fun w1 w2 => conflictCount c d x w1 ≤ conflictCount c d x w2)
    (dlookup d x)

/-- Python's `max(l, key=degree)`: the first element of maximal neighbor
count, `none` on the empty list. -/
def maxByDegree (c : Crossword) : List Variable → Option Variable
  | [] => none
  | v :: rest =>
    match maxByDegree c rest with
    | none => some v
    | some u => if (c.neighbors v).length < (c.neighbors u).length then some u else some v

/-- Source `CrosswordCreator.select_unassigned_variable`: among the domain keys not
yet assigned, stable-sort by domain size, collect the ones tied at the
minimal size, and return the single one, or the first of maximal degree. -/
def select_unassigned_variable (c : Crossword) (d : Domains) (a : Assignment) :
    Option Variable :=
  let unassigned := (d.map Prod.fst).filter (fun v => ! acontains a v)
  let sortedVars := List.insertionSort
    (fun v1 v2 => (dlookup d v1).length ≤ (dlookup d v2).length) unassigned
  match sortedVars with
  | [] => none
  | v0 :: _ =>
    let tied := sortedVars.filter (fun v => decide ((dlookup d v).length = (dlookup d v0).length))
    if tied.length = 1 then tied.head? else maxByDegree c tied

/-- The `for value in ordered_values` loop of `CrosswordCreator.backtrack`:
write the tentative entry, recurse (`bt`) when consistent, propagate a
found solution, and otherwise continue with the next candidate on the
mutated dict — the source never removes a tentative entry, so the dict
state on failure is part of the behavior. -/
def btLoop (c : Crossword) (bt : Assignment → Option Assignment × Assignment)
    (x : Variable) : List Word → Assignment → Option Assignment × Assignment
  | [], a => (none, a)
  | w :: rest, a =>
    let a1 := aset a x w
    if consistent c a1 then
      match bt a1 with
      | (some r, a2) => (some r, a2)
      | (none, a2) => btLoop c bt x rest a2
    else btLoop c bt x rest a1

/-- Source `CrosswordCreator.backtrack`, with the shared mutable dict made
explicit: the result is the returned value together with the final state
of the `assignment` dict.  The `fuel` argument bounds the recursion
depth, which in the source is bounded by the number of variables;
`backtrack` below supplies a sufficient amount. -/
def backtrackF (c : Crossword) (d : Domains) :
    Nat → Assignment → Option Assignment × Assignment
  | 0, a => (none, a)
  | fuel + 1, a =>
    if assignment_complete c a then (some a, a)
    else
      match select_unassigned_variable c d a with
      | none => (none, a)
      | some x =>
        btLoop c (fun a1 => backtrackF c d fuel a1) x (order_domain_values c d x a) a

/-- Source `CrosswordCreator.backtrack` at its bounding depth: one level per
assignable domain key plus the completeness check. -/
def backtrack (c : Crossword) (d : Domains) (a : Assignment) :
    Option Assignment × Assignment :=
  backtrackF c d (d.length + 1) a

/-- Source `CrosswordCreator.solve`: node consistency, then AC-3 (its Boolean
result discarded, as in the source), then backtracking from the empty
assignment; only the search result is returned. -/
def solve (c : Crossword) : Option Assignment :=
  let d0 := enforce_node_consistency (initDomains c)
  let d1 := (ac3 c d0 none).1
  (backtrack c d1 []).1

/-! ### Concrete crossword instances used as test inputs and witnesses -/

/-- A 2-letter across slot. -/
def varA : Variable := ⟨0, 0, true, 2⟩
/-- A 3-letter down slot. -/
def varB : Variable := ⟨0, 1, false, 3⟩
/-- A 4-letter across slot. -/
def varC : Variable := ⟨1, 0, true, 4⟩

/-- Overlap relation of the triangle instance: `varA[0] = varB[0]`,
`varB[1] = varC[1]`, `varA[1] = varC[2]`, symmetric. -/
def cex3Overlaps (x y : Variable) : Option (Nat × Nat) :=
  if x = varA ∧ y = varB then some (0, 0)
  else if x = varB ∧ y = varA then some (0, 0)
  else if x = varB ∧ y = varC then some (1, 1)
  else if x = varC ∧ y = varB then some (1, 1)
  else if x = varA ∧ y = varC then some (1, 2)
  else if x = varC ∧ y = varA then some (2, 1)
  else none

/-- A triangle of three mutually crossing slots whose vocabulary is
already arc consistent but where the search order makes the first
branch fail, exposing the missing undo in `backtrack`. -/
def cex3 : Crossword :=
  ⟨[varA, varB, varC],
   [['p','z'], ['q','y'], ['p','n','n'], ['q','m','m'],
    ['w','n','y','w'], ['w','m','z','w'], ['z','m','y','z'], ['w','m','z','v']],
   cex3Overlaps⟩

/-- The unique solution of `cex3`. -/
def cex3Solution : Assignment :=
  [(varA, ['q','y']), (varB, ['q','m','m']), (varC, ['z','m','y','z'])]

/-- A 2-letter across slot of the two-variable instance. -/
def varA2 : Variable := ⟨0, 0, true, 2⟩
/-- A 2-letter down slot of the two-variable instance. -/
def varB2 : Variable := ⟨0, 1, false, 2⟩

/-- Overlap relation of the two-variable instance: `varA2[1] = varB2[0]`. -/
def cex2Overlaps (x y : Variable) : Option (Nat × Nat) :=
  if x = varA2 ∧ y = varB2 then some (1, 0)
  else if x = varB2 ∧ y = varA2 then some (0, 1)
  else none

/-- Two crossing slots with an unsolvable vocabulary: every branch of the
search fails, so the final state of the assignment dict is observable. -/
def cex2 : Crossword := ⟨[varA2, varB2], [['a','b'], ['c','d']], cex2Overlaps⟩

/-- An isolated 3-letter slot with an empty vocabulary. -/
def varV5 : Variable := ⟨0, 0, true, 3⟩

/-- A crossword with a single neighborless variable and no words at all:
its domain is empty from the start and AC-3 never looks at it. -/
def cex5 : Crossword := ⟨[varV5], [], fun _ _ => none⟩

/-- A single 3-letter slot. -/
def varW : Variable := ⟨0, 0, true, 3⟩

/-- A solvable one-variable crossword. -/
def cw1 : Crossword := ⟨[varW], [['c','a','t']], fun _ _ => none⟩

/-! ### Theorems -/

/-! #### Evaluation helpers for AC-3 (defined by well-founded recursion) -/

theorem ac3Aux_nil (c : Crossword) (d : Domains) : ac3Aux c d [] = (d, true) := by
  simp [ac3Aux]

theorem ac3Aux_cons_false (c : Crossword) (d : Domains) (x y : Variable)
    (rest : List (Variable × Variable)) (h : (revise c d x y).2 = false) :
    ac3Aux c d ((x, y) :: rest) = ac3Aux c d rest := by
  rw [ac3Aux]
  simp [h]

theorem ac3Aux_no_revision (c : Crossword) (d : Domains)
    (arcs : List (Variable × Variable))
    (h : ∀ p ∈ arcs, (revise c d p.1 p.2).2 = false) :
    ac3Aux c d arcs = (d, true) := by
  induction arcs with
  | nil => exact ac3Aux_nil c d
  | cons p rest ih =>
    rw [show p = (p.1, p.2) from rfl, ac3Aux_cons_false c d p.1 p.2 rest (h p (by simp))]
    exact ih (fun q hq => h q (by simp [hq]))

/-- On `cex3`, the AC-3 pass makes no revision: the node-consistent
domains are already arc consistent. -/
theorem ac3_cex3 :
    ac3 cex3 (enforce_node_consistency (initDomains cex3)) none =
      (enforce_node_consistency (initDomains cex3), true) := by
  rw [ac3]
  exact ac3Aux_no_revision _ _ _ (by decide)

/-- On `cw1`, AC-3 is a no-op (no neighbors at all). -/
theorem ac3_cw1 :
    ac3 cw1 (enforce_node_consistency (initDomains cw1)) none =
      (enforce_node_consistency (initDomains cw1), true) := by
  rw [ac3]
  exact ac3Aux_no_revision _ _ _ (by decide)

/-! #### Node consistency (claim C7) -/

theorem enforce_node_consistency_dlookup (d : Domains) (v : Variable) :
    dlookup (enforce_node_consistency d) v =
      (dlookup d v).filter (fun w => decide (w.length = v.length)) := by
  induction d with
  | nil => rfl
  | cons p rest ih =>
    by_cases hp : p.1 = v
    · simp only [enforce_node_consistency, List.map_cons, dlookup, if_pos hp, hp, if_true]
    · simp only [enforce_node_consistency, List.map_cons, dlookup, if_neg hp]
      simpa [enforce_node_consistency] using ih

/-- Claim C7: after `enforce_node_consistency`, the domain of every
variable is exactly the initial domain restricted to the words of the
variable's length, so every remaining word has that length. -/
theorem spec_C7_node_consistency (d : Domains) (v : Variable) :
    dlookup (enforce_node_consistency d) v =
      (dlookup d v).filter (fun w => decide (w.length = v.length)) ∧
    ∀ w ∈ dlookup (enforce_node_consistency d) v, w.length = v.length := by
  refine ⟨enforce_node_consistency_dlookup d v, fun w hw => ?_⟩
  rw [enforce_node_consistency_dlookup d v] at hw
  simpa using (List.of_mem_filter hw)

/-- Witness for C7 at a concrete domain store. -/
theorem spec_C7_witness :
    dlookup (enforce_node_consistency [(varW, [['c','a','t'], ['x','y']])]) varW =
      [['c','a','t']] ∧ (['c','a','t'] : Word).length = varW.length := by
  constructor
  · exact (spec_C7_node_consistency [(varW, [['c','a','t'], ['x','y']])] varW).1.trans
      (by decide)
  · exact (spec_C7_node_consistency [(varW, [['c','a','t'], ['x','y']])] varW).2
      ['c','a','t'] (by decide)

/-! #### Single-arc revision: frame lemmas (claim C10) -/

theorem revise_dlookup_ne (c : Crossword) (d : Domains) (x y v : Variable)
    (h : v ≠ x) : dlookup (revise c d x y).1 v = dlookup d v := by
  unfold revise
  cases hov : c.overlaps x y with
  | none => rfl
  | some ij =>
    obtain ⟨i, j⟩ := ij
    exact dlookup_dupdate_ne d x v _ h

theorem dlookup_dupdate_self_or (d : Domains) (x : Variable) (ws : List Word) :
    dlookup (dupdate d x ws) x = ws ∨ dlookup (dupdate d x ws) x = dlookup d x := by
  induction d with
  | nil => right; rfl
  | cons p rest ih =>
    by_cases hp : p.1 = x
    · left
      rw [dupdate, if_pos hp, dlookup, if_pos hp]
    · rw [dupdate, if_neg hp, dlookup, if_neg hp, dlookup, if_neg hp]
      exact ih

theorem dlookup_dupdate_sub (d : Domains) (x : Variable) (ws : List Word)
    (hsub : ∀ w ∈ ws, w ∈ dlookup d x) :
    ∀ w ∈ dlookup (dupdate d x ws) x, w ∈ dlookup d x := by
  rcases dlookup_dupdate_self_or d x ws with h | h
  · rw [h]; exact hsub
  · rw [h]; exact fun w hw => hw

theorem revise_dlookup_sub (c : Crossword) (d : Domains) (x y : Variable) :
    ∀ w ∈ dlookup (revise c d x y).1 x, w ∈ dlookup d x := by
  unfold revise
  cases hov : c.overlaps x y with
  | none => intro w hw; exact hw
  | some ij =>
    obtain ⟨i, j⟩ := ij
    exact dlookup_dupdate_sub d x _ (fun w hw => List.mem_of_mem_filter hw)

/-- Claim C10: `revise(x, y)` only ever shrinks the domain of `x`; the
domain of `y` and of every other variable is left unchanged, and no word
is ever added anywhere. -/
theorem spec_C10_revise_frame (c : Crossword) (d : Domains) (x y : Variable) :
    (∀ v, v ≠ x → dlookup (revise c d x y).1 v = dlookup d v) ∧
    (∀ w ∈ dlookup (revise c d x y).1 x, w ∈ dlookup d x) :=
  ⟨fun v hv => revise_dlookup_ne c d x y v hv, revise_dlookup_sub c d x y⟩

/-- Witness for C10 on the triangle instance. -/
theorem spec_C10_witness :
    dlookup (revise cex3 (enforce_node_consistency (initDomains cex3)) varA varB).1 varB =
      dlookup (enforce_node_consistency (initDomains cex3)) varB ∧
    ['p','z'] ∈ dlookup (enforce_node_consistency (initDomains cex3)) varA :=
  ⟨(spec_C10_revise_frame cex3 (enforce_node_consistency (initDomains cex3)) varA varB).1
      varB (by decide),
   (spec_C10_revise_frame cex3 (enforce_node_consistency (initDomains cex3)) varA varB).2
      ['p','z'] (by decide)⟩

/-! #### Single-arc revision: functional specification (claim C6) -/

theorem filter_length_eq_iff {α : Type} (l : List α) (p : α → Bool) :
    (l.filter p).length = l.length ↔ ∀ b ∈ l, p b = true := by
  induction l with
  | nil => simp
  | cons a l ih =>
    cases ha : p a with
    | true => simp [List.filter_cons, ha, ih]
    | false =>
      have hle := List.length_filter_le p l
      constructor
      · intro h
        simp only [List.filter_cons, ha, if_neg] at h
        simp at h
        omega
      · intro h
        have := h a (List.mem_cons_self a l)
        simp [ha] at this

theorem dlookup_dupdate_or (d : Domains) (x : Variable) (ws : List Word) :
    dlookup (dupdate d x ws) x = ws ∨
      (dlookup d x = [] ∧ dlookup (dupdate d x ws) x = []) := by
  induction d with
  | nil => right; exact ⟨rfl, rfl⟩
  | cons p rest ih =>
    by_cases hp : p.1 = x
    · left
      rw [dupdate, if_pos hp, dlookup, if_pos hp]
    · rw [dupdate, if_neg hp, dlookup, if_neg hp, dlookup, if_neg hp]
      exact ih

theorem revise_mem_iff (c : Crossword) (d : Domains) (x y : Variable) (i j : Nat)
    (hov : c.overlaps x y = some (i, j)) (w : Word) :
    w ∈ dlookup (revise c d x y).1 x ↔
      w ∈ dlookup d x ∧ ∃ wy ∈ dlookup d y, charAt w i = charAt wy j ∧ w ≠ wy := by
  unfold revise
  rw [hov]
  simp only
  rcases dlookup_dupdate_or d x ((dlookup d x).filter
      (fun wx => (dlookup d y).any
        (fun wy => decide (charAt wx i = charAt wy j) && decide (wx ≠ wy)))) with h | h
  · rw [h, List.mem_filter]
    simp [List.any_eq_true]
  · rw [h.2]
    simp [h.1]

theorem revise_flag_iff (c : Crossword) (d : Domains) (x y : Variable) (i j : Nat)
    (hov : c.overlaps x y = some (i, j)) :
    (revise c d x y).2 = true ↔
      ∃ w ∈ dlookup d x, ∀ wy ∈ dlookup d y, ¬(charAt w i = charAt wy j ∧ w ≠ wy) := by
  unfold revise
  rw [hov]
  simp only [decide_eq_true_eq]
  rw [Ne, not_iff_comm, not_exists]
  push_neg
  rw [iff_comm, filter_length_eq_iff]
  constructor
  · intro hall w hw
    have := hall w hw
    simp only [List.any_eq_true, Bool.and_eq_true, decide_eq_true_eq] at this
    obtain ⟨wy, hwy, h1, h2⟩ := this
    exact ⟨wy, hwy, h1, h2⟩
  · intro hall w hw
    obtain ⟨wy, hwy, h1, h2⟩ := hall w hw
    simp only [List.any_eq_true, Bool.and_eq_true, decide_eq_true_eq]
    exact ⟨wy, hwy, h1, h2⟩

/-- Claim C6: with no overlap, `revise` changes nothing and reports
`false`; with overlap `(i, j)` it retains a candidate of `domains[x]`
exactly when some word of `domains[y]` agrees at the overlap indices and
differs from it, and reports `true` exactly when some candidate was
removed. -/
theorem spec_C6_revise (c : Crossword) (d : Domains) (x y : Variable) :
    (c.overlaps x y = none → revise c d x y = (d, false)) ∧
    (∀ i j, c.overlaps x y = some (i, j) →
      (∀ w, w ∈ dlookup (revise c d x y).1 x ↔
        w ∈ dlookup d x ∧ ∃ wy ∈ dlookup d y, charAt w i = charAt wy j ∧ w ≠ wy) ∧
      ((revise c d x y).2 = true ↔
        ∃ w ∈ dlookup d x, ∀ wy ∈ dlookup d y, ¬(charAt w i = charAt wy j ∧ w ≠ wy))) := by
  refine ⟨fun hn => ?_, fun i j hov =>
    ⟨revise_mem_iff c d x y i j hov, revise_flag_iff c d x y i j hov⟩⟩
  unfold revise
  rw [hn]

/-- Witness for C6 on the triangle instance and on an overlap-free pair. -/
theorem spec_C6_witness :
    (['p','z'] ∈ dlookup
        (revise cex3 (enforce_node_consistency (initDomains cex3)) varA varB).1 varA ↔
      ['p','z'] ∈ dlookup (enforce_node_consistency (initDomains cex3)) varA ∧
      ∃ wy ∈ dlookup (enforce_node_consistency (initDomains cex3)) varB,
        charAt ['p','z'] 0 = charAt wy 0 ∧ ['p','z'] ≠ wy) ∧
    revise cw1 (initDomains cw1) varW varW = (initDomains cw1, false) :=
  ⟨((spec_C6_revise cex3 (enforce_node_consistency (initDomains cex3)) varA varB).2
      0 0 (by decide)).1 ['p','z'],
   (spec_C6_revise cw1 (initDomains cw1) varW varW).1 rfl⟩

/-! #### Value ordering (claim C9) -/

/-- Claim C9: `order_domain_values` returns exactly the current domain of
the variable, arranged in ascending order of the conflict score counting
the (neighbor, candidate) pairs the word would rule out. -/
theorem spec_C9_order_domain_values (c : Crossword) (d : Domains) (x : Variable)
    (a : Assignment) :
    (order_domain_values c d x a).Perm (dlookup d x) ∧
    (order_domain_values c d x a).Pairwise
      (fun w1 w2 => conflictCount c d x w1 ≤ conflictCount c d x w2) := by
  constructor
  · exact List.perm_insertionSort _ _
  · haveI : IsTotal Word (fun w1 w2 => conflictCount c d x w1 ≤ conflictCount c d x w2) :=
      ⟨fun w1 w2 => Nat.le_total _ _⟩
    haveI : IsTrans Word (fun w1 w2 => conflictCount c d x w1 ≤ conflictCount c d x w2) :=
      ⟨fun w1 w2 w3 h1 h2 => Nat.le_trans h1 h2⟩
    exact List.sorted_insertionSort _ _

/-- Witness for C9 on the triangle instance. -/
theorem spec_C9_witness :
    (order_domain_values cex3 (enforce_node_consistency (initDomains cex3)) varB []).Perm
      (dlookup (enforce_node_consistency (initDomains cex3)) varB) ∧
    (order_domain_values cex3 (enforce_node_consistency (initDomains cex3)) varB []).Pairwise
      (fun w1 w2 =>
        conflictCount cex3 (enforce_node_consistency (initDomains cex3)) varB w1 ≤
        conflictCount cex3 (enforce_node_consistency (initDomains cex3)) varB w2) :=
  spec_C9_order_domain_values cex3 (enforce_node_consistency (initDomains cex3)) varB []

/-! #### The missing undo in backtrack (claim C2) -/

/-- Claim C2 fails on the code: on `cex2`, `backtrack` started on the
empty assignment returns failure, yet the assignment dict ends up holding
a stale entry for both variables instead of being restored to its entry
state — the loop never removes a tentative entry. -/
theorem spec_C2_backtrack_stale :
    backtrack cex2 (initDomains cex2) [] =
      (none, [(varA2, ['c','d']), (varB2, ['c','d'])]) ∧
    ([] : Assignment) ≠ [(varA2, ['c','d']), (varB2, ['c','d'])] := by
  exact ⟨by decide, by decide⟩

/-! #### The consistency predicate (claim C4) -/

theorem list_dedup_length_iff {α : Type} [DecidableEq α] (l : List α) :
    l.dedup.length = l.length ↔ l.Nodup := by
  constructor
  · intro h
    have hs := List.dedup_sublist l
    have := List.Sublist.eq_of_length hs h
    rw [← this]
    exact List.nodup_dedup l
  · intro h
    rw [List.dedup_eq_self.2 h]

theorem consistent_third_iff (c : Crossword) (a : Assignment) (p : Variable × Word) :
    ((c.neighbors p.1).all (fun v2 =>
      match alookup a v2 with
      | none => true
      | some w2 =>
        match c.overlaps p.1 v2 with
        | none => true
        | some (i, j) => decide (charAt p.2 i = charAt w2 j) && decide (p.2 ≠ w2)) = true) ↔
    (∀ v2 ∈ c.neighbors p.1, ∀ w2, alookup a v2 = some w2 →
       ∀ i j, c.overlaps p.1 v2 = some (i, j) →
         charAt p.2 i = charAt w2 j ∧ p.2 ≠ w2) := by
  rw [List.all_eq_true]
  refine forall₂_congr (fun v2 hv2 => ?_)
  cases hl : alookup a v2 with
  | none => simp
  | some w2 =>
    cases hov : c.overlaps p.1 v2 with
    | none => simp
    | some ij =>
      obtain ⟨i, j⟩ := ij
      simp [Bool.and_eq_true, decide_eq_true_eq]

/-- Claim C4: `consistent` holds exactly when all assigned words are
pairwise distinct, every word has the length of its variable, and every
assigned pair of neighboring variables agrees at its overlap indices
with distinct words. -/
theorem spec_C4_consistent (c : Crossword) (a : Assignment) :
    consistent c a = true ↔
      ((a.map Prod.snd).Nodup ∧
       (∀ p ∈ a, p.2.length = p.1.length) ∧
       (∀ p ∈ a, ∀ v2 ∈ c.neighbors p.1, ∀ w2, alookup a v2 = some w2 →
          ∀ i j, c.overlaps p.1 v2 = some (i, j) →
            charAt p.2 i = charAt w2 j ∧ p.2 ≠ w2)) := by
  unfold consistent
  simp only [Bool.and_eq_true]
  constructor
  · rintro ⟨⟨h1, h2⟩, h3⟩
    refine ⟨?_, ?_, ?_⟩
    · rw [decide_eq_true_eq] at h1
      exact (list_dedup_length_iff _).1 (h1.trans (List.length_map a Prod.snd).symm)
    · intro p hp
      have := List.all_eq_true.1 h2 p hp
      simpa using this
    · intro p hp
      exact (consistent_third_iff c a p).1 (List.all_eq_true.1 h3 p hp)
  · rintro ⟨h1, h2, h3⟩
    refine ⟨⟨?_, ?_⟩, ?_⟩
    · rw [decide_eq_true_eq]
      rw [show a.length = (a.map Prod.snd).length from (List.length_map a Prod.snd).symm]
      exact (list_dedup_length_iff _).2 h1
    · rw [List.all_eq_true]
      intro p hp
      simpa using h2 p hp
    · rw [List.all_eq_true]
      intro p hp
      exact (consistent_third_iff c a p).2 (h3 p hp)

/-- Witness for C4 on the one-variable instance. -/
theorem spec_C4_witness :
    (([(varW, ['c','a','t'])] : Assignment).map Prod.snd).Nodup ∧
    (∀ p ∈ ([(varW, ['c','a','t'])] : Assignment), p.2.length = p.1.length) ∧
    (∀ p ∈ ([(varW, ['c','a','t'])] : Assignment), ∀ v2 ∈ cw1.neighbors p.1,
       ∀ w2, alookup [(varW, ['c','a','t'])] v2 = some w2 →
       ∀ i j, cw1.overlaps p.1 v2 = some (i, j) →
         charAt p.2 i = charAt w2 j ∧ p.2 ≠ w2) :=
  (spec_C4_consistent cw1 [(varW, ['c','a','t'])]).mp (by decide)

/-! #### Variable selection (claim C8) -/

theorem maxByDegree_mem (c : Crossword) (l : List Variable) (v : Variable)
    (h : maxByDegree c l = some v) : v ∈ l := by
  induction l generalizing v with
  | nil => simp [maxByDegree] at h
  | cons u rest ih =>
    cases hm : maxByDegree c rest with
    | none =>
      rw [maxByDegree, hm] at h
      injection h with h
      exact h ▸ List.mem_cons_self u rest
    | some w =>
      rw [maxByDegree, hm] at h
      by_cases hd : (c.neighbors u).length < (c.neighbors w).length
      · simp only [if_pos hd] at h
        injection h with h
        exact List.mem_cons_of_mem u (ih v (h ▸ hm))
      · simp only [if_neg hd] at h
        injection h with h
        exact h ▸ List.mem_cons_self u rest

theorem maxByDegree_le (c : Crossword) (l : List Variable) (v : Variable)
    (h : maxByDegree c l = some v) :
    ∀ u ∈ l, (c.neighbors u).length ≤ (c.neighbors v).length := by
  induction l generalizing v with
  | nil => intro u hu; simp at hu
  | cons w rest ih =>
    cases hm : maxByDegree c rest with
    | none =>
      rw [maxByDegree, hm] at h
      injection h with h
      subst h
      intro u hu
      rcases List.mem_cons.1 hu with h1 | h1
      · subst h1; exact le_refl _
      · cases rest with
        | nil => simp at h1
        | cons r rtail =>
          rw [maxByDegree] at hm
          cases hm2 : maxByDegree c rtail with
          | none => rw [hm2] at hm; simp at hm
          | some z =>
            rw [hm2] at hm
            by_cases hd : (c.neighbors r).length < (c.neighbors z).length <;>
              simp [hd] at hm
    | some w2 =>
      rw [maxByDegree, hm] at h
      by_cases hd : (c.neighbors w).length < (c.neighbors w2).length
      · simp only [if_pos hd] at h
        injection h with h
        subst h
        intro u hu
        rcases List.mem_cons.1 hu with h1 | h1
        · subst h1; exact Nat.le_of_lt hd
        · exact ih _ hm u h1
      · simp only [if_neg hd] at h
        injection h with h
        subst h
        intro u hu
        rcases List.mem_cons.1 hu with h1 | h1
        · subst h1; exact le_refl _
        · exact Nat.le_trans (ih w2 hm u h1) (Nat.le_of_not_lt hd)

theorem maxByDegree_ne_none (c : Crossword) (v : Variable) (rest : List Variable) :
    maxByDegree c (v :: rest) ≠ none := by
  rw [maxByDegree]
  cases maxByDegree c rest with
  | none => simp
  | some u => by_cases h : (c.neighbors v).length < (c.neighbors u).length <;> simp [h]

theorem select_core (c : Crossword) (d : Domains) (a : Assignment) :
    ((d.map Prod.fst).filter (fun v => ! acontains a v) ≠ [] →
       ∃ x, select_unassigned_variable c d a = some x) ∧
    (∀ x, select_unassigned_variable c d a = some x →
       x ∈ (d.map Prod.fst).filter (fun v => ! acontains a v) ∧
       (∀ u ∈ (d.map Prod.fst).filter (fun v => ! acontains a v),
          (dlookup d x).length ≤ (dlookup d u).length ∧
          ((dlookup d u).length = (dlookup d x).length →
           (c.neighbors u).length ≤ (c.neighbors x).length))) := by
  haveI : IsTotal Variable (fun v1 v2 => (dlookup d v1).length ≤ (dlookup d v2).length) :=
    ⟨fun v1 v2 => Nat.le_total _ _⟩
  haveI : IsTrans Variable (fun v1 v2 => (dlookup d v1).length ≤ (dlookup d v2).length) :=
    ⟨fun v1 v2 v3 h1 h2 => Nat.le_trans h1 h2⟩
  unfold select_unassigned_variable
  cases hs : List.insertionSort (fun v1 v2 => (dlookup d v1).length ≤ (dlookup d v2).length)
      ((d.map Prod.fst).filter (fun v => ! acontains a v)) with
  | nil =>
    simp only [hs]
    constructor
    · intro hne
      exfalso
      have hp := List.perm_insertionSort
        (fun v1 v2 => (dlookup d v1).length ≤ (dlookup d v2).length)
        ((d.map Prod.fst).filter (fun v => ! acontains a v))
      rw [hs] at hp
      exact hne (List.Perm.nil_eq hp).symm
    · intro x hx
      simp at hx
  | cons v0 tail =>
    simp only [hs]
    have hperm : ∀ v, v ∈ v0 :: tail ↔
        v ∈ (d.map Prod.fst).filter (fun v => ! acontains a v) := by
      intro v
      rw [← hs]
      exact List.mem_insertionSort _
    have hsorted : List.Sorted
        (fun v1 v2 => (dlookup d v1).length ≤ (dlookup d v2).length) (v0 :: tail) := by
      rw [← hs]
      exact List.sorted_insertionSort _ _
    have hmin : ∀ u ∈ (d.map Prod.fst).filter (fun v => ! acontains a v),
        (dlookup d v0).length ≤ (dlookup d u).length := by
      intro u hu
      rcases List.mem_cons.1 ((hperm u).2 hu) with h1 | h1
      · subst h1; exact le_refl _
      · exact List.rel_of_sorted_cons hsorted u h1
    have htied : (v0 :: tail).filter
        (fun v => decide ((dlookup d v).length = (dlookup d v0).length)) =
        v0 :: tail.filter (fun v => decide ((dlookup d v).length = (dlookup d v0).length)) := by
      rw [List.filter_cons]
      simp
    have htiedmem : ∀ u, u ∈ (v0 :: tail).filter
          (fun v => decide ((dlookup d v).length = (dlookup d v0).length)) ↔
        (u ∈ (d.map Prod.fst).filter (fun v => ! acontains a v) ∧
         (dlookup d u).length = (dlookup d v0).length) := by
      intro u
      rw [List.mem_filter]
      simp only [decide_eq_true_eq]
      exact and_congr_left (fun _ => hperm u)
    by_cases hone : ((v0 :: tail).filter
        (fun v => decide ((dlookup d v).length = (dlookup d v0).length))).length = 1
    · rw [if_pos hone]
      have hhead : ((v0 :: tail).filter
          (fun v => decide ((dlookup d v).length = (dlookup d v0).length))).head? =
          some v0 := by
        rw [htied]
        rfl
      constructor
      · intro _
        exact ⟨v0, hhead⟩
      · intro x hx
        rw [hhead] at hx
        injection hx with hx
        subst hx
        refine ⟨(hperm v0).1 (List.mem_cons_self v0 tail),
          fun u hu => ⟨hmin u hu, fun hl => ?_⟩⟩
        have humem : u ∈ (v0 :: tail).filter
            (fun v => decide ((dlookup d v).length = (dlookup d v0).length)) :=
          (htiedmem u).2 ⟨hu, hl⟩
        rw [htied] at humem hone
        have hlen0 : (tail.filter
            (fun v => decide ((dlookup d v).length = (dlookup d v0).length))).length = 0 := by
          simpa using hone
        rw [List.eq_nil_of_length_eq_zero hlen0] at humem
        rcases List.mem_cons.1 humem with h1 | h1
        · subst h1; exact le_refl _
        · simp at h1
    · rw [if_neg hone]
      constructor
      · intro _
        cases hmb : maxByDegree c ((v0 :: tail).filter
            (fun v => decide ((dlookup d v).length = (dlookup d v0).length))) with
        | none =>
          rw [htied] at hmb
          exact absurd hmb (maxByDegree_ne_none c v0 _)
        | some x => exact ⟨x, rfl⟩
      · intro x hx
        have hxmem := maxByDegree_mem c _ x hx
        have hxprops := (htiedmem x).1 hxmem
        refine ⟨hxprops.1, fun u hu => ⟨hxprops.2 ▸ hmin u hu, fun hl => ?_⟩⟩
        exact maxByDegree_le c _ x hx u ((htiedmem u).2 ⟨hu, hl.trans hxprops.2⟩)

/-- Claim C8: on any assignment with an unassigned variable,
`select_unassigned_variable` returns an unassigned variable of minimal
current domain size, of maximal neighbor count among those tied at the
minimal size. -/
theorem spec_C8_select (c : Crossword) (d : Domains) (a : Assignment) (u0 : Variable)
    (h0 : u0 ∈ d.map Prod.fst) (h1 : acontains a u0 = false) :
    ∃ x, select_unassigned_variable c d a = some x ∧
      x ∈ d.map Prod.fst ∧ acontains a x = false ∧
      ∀ u ∈ d.map Prod.fst, acontains a u = false →
        (dlookup d x).length ≤ (dlookup d u).length ∧
        ((dlookup d u).length = (dlookup d x).length →
         (c.neighbors u).length ≤ (c.neighbors x).length) := by
  have hu0 : u0 ∈ (d.map Prod.fst).filter (fun v => ! acontains a v) :=
    List.mem_filter.2 ⟨h0, by simp [h1]⟩
  obtain ⟨x, hx⟩ := (select_core c d a).1 (List.ne_nil_of_mem hu0)
  obtain ⟨hmem, hprops⟩ := (select_core c d a).2 x hx
  have hxd := List.mem_filter.1 hmem
  refine ⟨x, hx, hxd.1, by simpa using hxd.2, fun u hu hun => ?_⟩
  exact hprops u (List.mem_filter.2 ⟨hu, by simp [hun]⟩)

/-- Witness for C8 on the triangle instance. -/
theorem spec_C8_witness :
    ∃ x, select_unassigned_variable cex3
        (enforce_node_consistency (initDomains cex3)) [] = some x ∧
      x ∈ (enforce_node_consistency (initDomains cex3)).map Prod.fst ∧
      acontains [] x = false ∧
      ∀ u ∈ (enforce_node_consistency (initDomains cex3)).map Prod.fst,
        acontains [] u = false →
        (dlookup (enforce_node_consistency (initDomains cex3)) x).length ≤
          (dlookup (enforce_node_consistency (initDomains cex3)) u).length ∧
        ((dlookup (enforce_node_consistency (initDomains cex3)) u).length =
          (dlookup (enforce_node_consistency (initDomains cex3)) x).length →
         (cex3.neighbors u).length ≤ (cex3.neighbors x).length) :=
  spec_C8_select cex3 (enforce_node_consistency (initDomains cex3)) [] varA
    (by decide) (by decide)

/-! #### Assignment-dict lemmas -/

theorem alookup_aset_self (a : Assignment) (x : Variable) (w : Word) :
    alookup (aset a x w) x = some w := by
  induction a with
  | nil => simp [aset, alookup]
  | cons p rest ih =>
    by_cases hp : p.1 = x
    · rw [aset, if_pos hp, alookup]
      simp
    · rw [aset, if_neg hp, alookup, if_neg hp]
      exact ih

theorem alookup_aset_ne (a : Assignment) (x v : Variable) (w : Word) (h : v ≠ x) :
    alookup (aset a x w) v = alookup a v := by
  induction a with
  | nil =>
    have hxv : ¬ x = v := fun hh => h hh.symm
    show alookup [(x, w)] v = alookup [] v
    simp [alookup, hxv]
  | cons p rest ih =>
    by_cases hp : p.1 = x
    · have hv : ¬ p.1 = v := fun hh => h (hh ▸ hp)
      rw [aset, if_pos hp, alookup, if_neg (fun hh : x = v => h hh.symm), alookup, if_neg hv]
    · rw [aset, if_neg hp, alookup, alookup]
      by_cases hv : p.1 = v
      · rw [if_pos hv, if_pos hv]
      · rw [if_neg hv, if_neg hv, ih]

theorem acontains_iff_mem (a : Assignment) (v : Variable) :
    acontains a v = true ↔ v ∈ a.map Prod.fst := by
  induction a with
  | nil => simp [acontains, alookup]
  | cons p rest ih =>
    by_cases hp : p.1 = v
    · simp [acontains, alookup, if_pos hp, hp]
    · rw [acontains, alookup, if_neg hp]
      rw [acontains] at ih
      simp only [List.map_cons, List.mem_cons]
      rw [ih]
      constructor
      · exact Or.inr
      · rintro (h | h)
        · exact absurd h.symm hp
        · exact h

theorem aset_map_fst_mem (a : Assignment) (x : Variable) (w : Word)
    (h : acontains a x = true) :
    (aset a x w).map Prod.fst = a.map Prod.fst := by
  induction a with
  | nil => simp [acontains, alookup] at h
  | cons p rest ih =>
    by_cases hp : p.1 = x
    · rw [aset, if_pos hp]
      simp [hp]
    · rw [acontains, alookup, if_neg hp, ← acontains] at h
      rw [aset, if_neg hp]
      simp only [List.map_cons]
      rw [ih h]

theorem aset_map_fst_not_mem (a : Assignment) (x : Variable) (w : Word)
    (h : acontains a x = false) :
    (aset a x w).map Prod.fst = a.map Prod.fst ++ [x] := by
  induction a with
  | nil => simp [aset]
  | cons p rest ih =>
    by_cases hp : p.1 = x
    · rw [acontains, alookup, if_pos hp] at h
      simp at h
    · rw [acontains, alookup, if_neg hp, ← acontains] at h
      rw [aset, if_neg hp]
      simp only [List.map_cons, List.cons_append]
      rw [ih h]

theorem consistent_nil (c : Crossword) : consistent c [] = true := rfl

/-! #### Domain keys are preserved along the pipeline -/

theorem initDomains_keys (c : Crossword) : (initDomains c).map Prod.fst = c.vars := by
  have hgen : ∀ l : List Variable, (l.map (fun v => (v, c.words))).map Prod.fst = l := by
    intro l
    induction l with
    | nil => rfl
    | cons v rest ih => simp [ih]
  exact hgen c.vars

theorem enforce_node_consistency_keys (d : Domains) :
    (enforce_node_consistency d).map Prod.fst = d.map Prod.fst := by
  simp [enforce_node_consistency, List.map_map, Function.comp]

theorem dupdate_keys (d : Domains) (x : Variable) (ws : List Word) :
    (dupdate d x ws).map Prod.fst = d.map Prod.fst := by
  induction d with
  | nil => rfl
  | cons p rest ih =>
    by_cases hp : p.1 = x
    · rw [dupdate, if_pos hp]
      simp
    · rw [dupdate, if_neg hp]
      simp only [List.map_cons]
      rw [ih]

theorem revise_keys (c : Crossword) (d : Domains) (x y : Variable) :
    (revise c d x y).1.map Prod.fst = d.map Prod.fst := by
  unfold revise
  cases hov : c.overlaps x y with
  | none => rfl
  | some ij =>
    obtain ⟨i, j⟩ := ij
    exact dupdate_keys d x _

theorem ac3Aux_cons_true (c : Crossword) (d : Domains) (x y : Variable)
    (rest : List (Variable × Variable)) (h : (revise c d x y).2 = true) :
    ac3Aux c d ((x, y) :: rest) =
      if (dlookup (revise c d x y).1 x).isEmpty then ((revise c d x y).1, false)
      else ac3Aux c (revise c d x y).1
        (rest ++ ((c.neighbors x).erase y).map (fun z => (z, x))) := by
  rw [ac3Aux]
  simp [h]

theorem ac3Aux_keys (c : Crossword) :
    ∀ n d arcs, totalSize d ≤ n →
      (ac3Aux c d arcs).1.map Prod.fst = d.map Prod.fst := by
  intro n
  induction n with
  | zero =>
    intro d arcs h0
    induction arcs with
    | nil => rw [ac3Aux_nil]
    | cons p rest ih =>
      obtain ⟨x, y⟩ := p
      by_cases hrev : (revise c d x y).2 = true
      · exact absurd (revise_totalSize_lt c d x y hrev) (by omega)
      · rw [ac3Aux_cons_false c d x y rest (by simpa using hrev)]
        exact ih
  | succ n ihn =>
    intro d arcs hd
    induction arcs with
    | nil => rw [ac3Aux_nil]
    | cons p rest ih =>
      obtain ⟨x, y⟩ := p
      by_cases hrev : (revise c d x y).2 = true
      · rw [ac3Aux_cons_true c d x y rest hrev]
        by_cases hemp : (dlookup (revise c d x y).1 x).isEmpty
        · rw [if_pos hemp]
          exact revise_keys c d x y
        · rw [if_neg hemp]
          have hlt := revise_totalSize_lt c d x y hrev
          rw [ihn (revise c d x y).1 _ (by omega)]
          exact revise_keys c d x y
      · rw [ac3Aux_cons_false c d x y rest (by simpa using hrev)]
        exact ih

theorem ac3_none_keys (c : Crossword) (d : Domains) :
    (ac3 c d none).1.map Prod.fst = d.map Prod.fst := by
  rw [ac3]
  exact ac3Aux_keys c (totalSize d) d _ (le_refl _)

/-! #### Backtracking search postcondition (claim C1) -/

theorem select_some_unassigned (c : Crossword) (d : Domains) (a : Assignment)
    (x : Variable) (h : select_unassigned_variable c d a = some x) :
    x ∈ d.map Prod.fst ∧ acontains a x = false := by
  have hmem := ((select_core c d a).2 x h).1
  have hm2 := List.mem_filter.1 hmem
  exact ⟨hm2.1, by simpa using hm2.2⟩

theorem btLoop_cons (c : Crossword) (bt : Assignment → Option Assignment × Assignment)
    (x : Variable) (w : Word) (rest : List Word) (a : Assignment) :
    btLoop c bt x (w :: rest) a =
      if consistent c (aset a x w) then
        match bt (aset a x w) with
        | (some r, a2) => (some r, a2)
        | (none, a2) => btLoop c bt x rest a2
      else btLoop c bt x rest (aset a x w) := rfl

theorem subset_nodup_length_mem {α : Type} [DecidableEq α] (l1 l2 : List α)
    (h1 : l1.Nodup) (h2 : l2.Nodup) (hsub : ∀ v ∈ l1, v ∈ l2)
    (hlen : l2.length ≤ l1.length) : ∀ v ∈ l2, v ∈ l1 := by
  intro v hv
  have hfs : l1.toFinset ⊆ l2.toFinset :=
    fun u hu => List.mem_toFinset.2 (hsub u (List.mem_toFinset.1 hu))
  have hc1 : l1.toFinset.card = l1.length := List.toFinset_card_of_nodup h1
  have hc2 : l2.toFinset.card = l2.length := List.toFinset_card_of_nodup h2
  have heq : l1.toFinset = l2.toFinset :=
    Finset.eq_of_subset_of_card_le hfs (by omega)
  exact List.mem_toFinset.1 (heq ▸ List.mem_toFinset.2 hv)

theorem backtrackF_post (c : Crossword) (d : Domains) :
    ∀ fuel a,
      (a.map Prod.fst).Nodup →
      (∀ v ∈ a.map Prod.fst, v ∈ d.map Prod.fst) →
      (((backtrackF c d fuel a).2.map Prod.fst).Nodup ∧
       (∀ v ∈ (backtrackF c d fuel a).2.map Prod.fst, v ∈ d.map Prod.fst)) ∧
      (consistent c a = true →
        ∀ r, (backtrackF c d fuel a).1 = some r →
          assignment_complete c r = true ∧ consistent c r = true ∧
          (r.map Prod.fst).Nodup ∧ (∀ v ∈ r.map Prod.fst, v ∈ d.map Prod.fst)) := by
  intro fuel
  induction fuel with
  | zero =>
    intro a hnd hsub
    exact ⟨⟨hnd, hsub⟩, fun _ r hr => by simp [backtrackF] at hr⟩
  | succ fuel ih =>
    intro a hnd hsub
    by_cases hcomp : assignment_complete c a = true
    · have heq : backtrackF c d (fuel + 1) a = (some a, a) := by
        rw [backtrackF, if_pos hcomp]
      rw [heq]
      refine ⟨⟨hnd, hsub⟩, fun hcons r hr => ?_⟩
      have har : a = r := by simpa using hr
      subst har
      exact ⟨hcomp, hcons, hnd, hsub⟩
    · cases hsel : select_unassigned_variable c d a with
      | none =>
        have heq : backtrackF c d (fuel + 1) a = (none, a) := by
          rw [backtrackF, if_neg hcomp, hsel]
        rw [heq]
        exact ⟨⟨hnd, hsub⟩, fun _ r hr => by simp at hr⟩
      | some x =>
        have hxmem := select_some_unassigned c d a x hsel
        have heq : backtrackF c d (fuel + 1) a =
            btLoop c (fun a1 => backtrackF c d fuel a1) x (order_domain_values c d x a) a := by
          rw [backtrackF, if_neg hcomp, hsel]
        rw [heq]
        have hloop : ∀ vals a2,
            (a2.map Prod.fst).Nodup →
            (∀ v ∈ a2.map Prod.fst, v ∈ d.map Prod.fst) →
            (((btLoop c (fun a1 => backtrackF c d fuel a1) x vals a2).2.map Prod.fst).Nodup ∧
             (∀ v ∈ (btLoop c (fun a1 => backtrackF c d fuel a1) x vals a2).2.map Prod.fst,
                v ∈ d.map Prod.fst)) ∧
            (∀ r, (btLoop c (fun a1 => backtrackF c d fuel a1) x vals a2).1 = some r →
               assignment_complete c r = true ∧ consistent c r = true ∧
               (r.map Prod.fst).Nodup ∧ (∀ v ∈ r.map Prod.fst, v ∈ d.map Prod.fst)) := by
          intro vals
          induction vals with
          | nil =>
            intro a2 h1 h2
            exact ⟨⟨h1, h2⟩, fun r hr => by simp [btLoop] at hr⟩
          | cons w rest ihv =>
            intro a2 h1 h2
            have h1a : ((aset a2 x w).map Prod.fst).Nodup := by
              cases hax : acontains a2 x with
              | true => rw [aset_map_fst_mem a2 x w hax]; exact h1
              | false =>
                rw [aset_map_fst_not_mem a2 x w hax]
                rw [List.nodup_append]
                refine ⟨h1, List.nodup_singleton x, ?_⟩
                intro u hu hux
                rw [List.mem_singleton] at hux
                subst hux
                exact absurd ((acontains_iff_mem a2 u).2 hu) (by simp [hax])
            have h2a : ∀ v ∈ (aset a2 x w).map Prod.fst, v ∈ d.map Prod.fst := by
              cases hax : acontains a2 x with
              | true => rw [aset_map_fst_mem a2 x w hax]; exact h2
              | false =>
                rw [aset_map_fst_not_mem a2 x w hax]
                intro v hv
                rcases List.mem_append.1 hv with h | h
                · exact h2 v h
                · rw [List.mem_singleton] at h
                  subst h
                  exact hxmem.1
            rw [btLoop_cons]
            by_cases hcons : consistent c (aset a2 x w) = true
            · rw [if_pos hcons]
              have hbt := ih (aset a2 x w) h1a h2a
              obtain ⟨⟨r1, a3⟩, hres⟩ :
                  ∃ p, backtrackF c d fuel (aset a2 x w) = p := ⟨_, rfl⟩
              rw [hres]
              rw [hres] at hbt
              cases r1 with
              | some rr =>
                refine ⟨⟨hbt.1.1, hbt.1.2⟩, fun r hr => ?_⟩
                have hrr : rr = r := by simpa using hr
                subst hrr
                exact hbt.2 hcons rr rfl
              | none =>
                exact ihv a3 hbt.1.1 hbt.1.2
            · rw [if_neg hcons]
              exact ihv (aset a2 x w) h1a h2a
        exact ⟨(hloop (order_domain_values c d x a) a hnd hsub).1,
          fun _ => (hloop (order_domain_values c d x a) a hnd hsub).2⟩

/-- Claim C1: `solve` returns the absence value or a complete consistent
assignment: every variable of the crossword is mapped to a word and the
`consistent` predicate holds; it never returns a partial or inconsistent
assignment. -/
theorem spec_C1_solve (c : Crossword) (hnd : c.vars.Nodup) (r : Assignment)
    (h : solve c = some r) :
    consistent c r = true ∧ ∀ v ∈ c.vars, (alookup r v).isSome = true := by
  simp only [solve] at h
  rw [backtrack] at h
  have hpost := (backtrackF_post c
      ((ac3 c (enforce_node_consistency (initDomains c)) none).1)
      (((ac3 c (enforce_node_consistency (initDomains c)) none).1).length + 1)
      [] (by simp) (by simp)).2 (consistent_nil c) r h
  obtain ⟨hcomp, hcons, hndk, hsubk⟩ := hpost
  have hkeys : ((ac3 c (enforce_node_consistency (initDomains c)) none).1).map Prod.fst =
      c.vars := by
    rw [ac3_none_keys, enforce_node_consistency_keys, initDomains_keys]
  refine ⟨hcons, fun v hv => ?_⟩
  have hlen : c.vars.length ≤ (r.map Prod.fst).length := by
    rw [List.length_map]
    simp only [assignment_complete, decide_eq_true_eq] at hcomp
    omega
  have hsub2 : ∀ u ∈ r.map Prod.fst, u ∈ c.vars := fun u hu => hkeys ▸ hsubk u hu
  exact (acontains_iff_mem r v).2
    (subset_nodup_length_mem (r.map Prod.fst) c.vars hndk hnd hsub2 hlen v hv)

/-- Witness for C1 on the solvable one-variable instance. -/
theorem spec_C1_witness :
    consistent cw1 [(varW, ['c','a','t'])] = true ∧
    ∀ v ∈ cw1.vars, (alookup [(varW, ['c','a','t'])] v).isSome = true :=
  spec_C1_solve cw1 (by decide) [(varW, ['c','a','t'])]
    (by rw [solve, ac3_cw1]; decide)

/-! #### Search incompleteness on the triangle instance (claim C3) -/

/-- Claim C3 fails on the code: on `cex3` the solver returns the absence
value even though `cex3Solution` is a complete consistent assignment
whose words all lie in the post-propagation domains.  The stale
tentative entries left by the missing undo make the second branch of the
first variable appear inconsistent, so it is skipped. -/
theorem spec_C3_search_incomplete :
    solve cex3 = none ∧
    (backtrackF cex3 (ac3 cex3 (enforce_node_consistency (initDomains cex3)) none).1
        100 []).1 = none ∧
    assignment_complete cex3 cex3Solution = true ∧
    consistent cex3 cex3Solution = true ∧
    (∀ p ∈ cex3Solution, p.2 ∈ dlookup
        (ac3 cex3 (enforce_node_consistency (initDomains cex3)) none).1 p.1) := by
  refine ⟨by rw [solve, ac3_cex3]; decide, ?_, by decide, by decide, ?_⟩
  · rw [ac3_cex3]
    decide
  · rw [ac3_cex3]
    decide

/-! #### Arc consistency after AC-3 (claim C5) -/

/-- Arc consistency of `x` with respect to `y` in the domain store `d`:
every remaining candidate of `x` has a distinct supporting candidate of
`y` agreeing at the overlap indices (vacuous without an overlap). -/
def ArcOK (c : Crossword) (d : Domains) (x y : Variable) : Prop :=
  ∀ i j, c.overlaps x y = some (i, j) →
    ∀ wx ∈ dlookup d x, ∃ wy ∈ dlookup d y, charAt wx i = charAt wy j ∧ wx ≠ wy

theorem mem_neighbors (c : Crossword) (x z : Variable) :
    z ∈ c.neighbors x ↔ z ∈ c.vars ∧ z ≠ x ∧ (c.overlaps x z).isSome = true := by
  rw [Crossword.neighbors, List.mem_filter]
  simp [Bool.and_eq_true, decide_eq_true_eq]

theorem overlaps_isSome_symm (c : Crossword)
    (hsym : ∀ x y i j, c.overlaps x y = some (i, j) → c.overlaps y x = some (j, i))
    (x z : Variable) (h : (c.overlaps x z).isSome = true) :
    (c.overlaps z x).isSome = true := by
  cases hov : c.overlaps x z with
  | none => rw [hov] at h; simp at h
  | some ij =>
    obtain ⟨i, j⟩ := ij
    rw [hsym x z i j hov]
    rfl

theorem mem_neighbors_symm (c : Crossword)
    (hsym : ∀ x y i j, c.overlaps x y = some (i, j) → c.overlaps y x = some (j, i))
    (x z : Variable) (hx : x ∈ c.vars) (h : z ∈ c.neighbors x) :
    x ∈ c.neighbors z := by
  obtain ⟨hzv, hzx, hov⟩ := (mem_neighbors c x z).1 h
  exact (mem_neighbors c z x).2
    ⟨hx, fun he => hzx he.symm, overlaps_isSome_symm c hsym x z hov⟩

theorem dlookup_eq_nil_of_not_mem (d : Domains) (v : Variable)
    (h : v ∉ d.map Prod.fst) : dlookup d v = [] := by
  induction d with
  | nil => rfl
  | cons p rest ih =>
    rw [List.map_cons, List.mem_cons] at h
    push_neg at h
    rw [dlookup, if_neg (fun hh : p.1 = v => h.1 hh.symm)]
    exact ih h.2

theorem revise_dlookup_sub_any (c : Crossword) (d : Domains) (x y : Variable) :
    ∀ u, ∀ w ∈ dlookup (revise c d x y).1 u, w ∈ dlookup d u := by
  intro u
  by_cases hu : u = x
  · subst hu
    exact revise_dlookup_sub c d u y
  · rw [revise_dlookup_ne c d x y u hu]
    exact fun w hw => hw

theorem revise_arcOK (c : Crossword) (d : Domains) (x y : Variable) (hxy : y ≠ x) :
    ArcOK c (revise c d x y).1 x y := by
  intro i j hov wx hwx
  obtain ⟨-, wy, hwy, hagree, hne⟩ := (revise_mem_iff c d x y i j hov wx).1 hwx
  refine ⟨wy, ?_, hagree, hne⟩
  rw [revise_dlookup_ne c d x y y hxy]
  exact hwy

theorem revise_false_arcOK (c : Crossword) (d : Domains) (x y : Variable)
    (h : (revise c d x y).2 = false) : ArcOK c d x y := by
  intro i j hov wx hwx
  by_contra hc
  have hex : ∃ w ∈ dlookup d x, ∀ wy ∈ dlookup d y,
      ¬(charAt w i = charAt wy j ∧ w ≠ wy) :=
    ⟨wx, hwx, fun wy hwy hpq => hc ⟨wy, hwy, hpq⟩⟩
  have := (revise_flag_iff c d x y i j hov).2 hex
  rw [h] at this
  exact Bool.false_ne_true this

theorem revise_preserves_sym (c : Crossword) (d : Domains) (x y : Variable)
    (hsym : ∀ a b i j, c.overlaps a b = some (i, j) → c.overlaps b a = some (j, i))
    (hyx : y ≠ x) (h : ArcOK c d y x) : ArcOK c (revise c d x y).1 y x := by
  intro j2 i2 hovyx wy hwy
  rw [revise_dlookup_ne c d x y y hyx] at hwy
  have hovxy : c.overlaps x y = some (i2, j2) := hsym y x j2 i2 hovyx
  obtain ⟨wx, hwx, hagree, hne⟩ := h j2 i2 hovyx wy hwy
  refine ⟨wx, ?_, hagree, hne⟩
  rw [revise_mem_iff c d x y i2 j2 hovxy wx]
  exact ⟨hwx, wy, hwy, hagree.symm, fun he => hne he.symm⟩

theorem arcOK_shrink (c : Crossword) (d1 d2 : Domains) (u v : Variable)
    (hsub : ∀ w ∈ dlookup d2 u, w ∈ dlookup d1 u)
    (heq : dlookup d2 v = dlookup d1 v)
    (h : ArcOK c d1 u v) : ArcOK c d2 u v := by
  intro i j hov wx hwx
  obtain ⟨wy, hwy, hp⟩ := h i j hov wx (hsub wx hwx)
  exact ⟨wy, heq ▸ hwy, hp⟩

theorem ac3Aux_invariant (c : Crossword)
    (hsym : ∀ x y i j, c.overlaps x y = some (i, j) → c.overlaps y x = some (j, i)) :
    ∀ n d arcs, totalSize d ≤ n →
      (∀ p ∈ arcs, p.1 ≠ p.2 ∧ (c.overlaps p.1 p.2).isSome = true) →
      (∀ u ∈ c.vars, ∀ v ∈ c.neighbors u, (u, v) ∈ arcs ∨ ArcOK c d u v) →
      ∀ d2, ac3Aux c d arcs = (d2, true) →
        (∀ u ∈ c.vars, ∀ v ∈ c.neighbors u, ArcOK c d2 u v) ∧
        (∀ w, dlookup d2 w = [] → dlookup d w = []) := by
  intro n
  induction n with
  | zero =>
    intro d arcs h0 hq hinv d2 hrun
    induction arcs with
    | nil =>
      rw [ac3Aux_nil] at hrun
      injection hrun with hd _
      subst hd
      refine ⟨fun u hu v hv => ?_, fun w hw => hw⟩
      rcases hinv u hu v hv with h | h
      · simp at h
      · exact h
    | cons p rest iha =>
      obtain ⟨x, y⟩ := p
      by_cases hrev : (revise c d x y).2 = true
      · exact absurd (revise_totalSize_lt c d x y hrev) (by omega)
      · rw [ac3Aux_cons_false c d x y rest (by simpa using hrev)] at hrun
        refine iha (fun q hq2 => hq q (List.mem_cons_of_mem _ hq2)) ?_ hrun
        intro u hu v hv
        rcases hinv u hu v hv with h | h
        · rcases List.mem_cons.1 h with h2 | h2
          · right
            have hux : u = x := congrArg Prod.fst h2
            have hvy : v = y := congrArg Prod.snd h2
            subst hux
            subst hvy
            exact revise_false_arcOK c d u v (by simpa using hrev)
          · exact Or.inl h2
        · exact Or.inr h
  | succ n ihn =>
    intro d arcs hd hq hinv d2 hrun
    induction arcs with
    | nil =>
      rw [ac3Aux_nil] at hrun
      injection hrun with hd2 _
      subst hd2
      refine ⟨fun u hu v hv => ?_, fun w hw => hw⟩
      rcases hinv u hu v hv with h | h
      · simp at h
      · exact h
    | cons p rest iha =>
      obtain ⟨x, y⟩ := p
      by_cases hrev : (revise c d x y).2 = true
      · rw [ac3Aux_cons_true c d x y rest hrev] at hrun
        by_cases hemp : (dlookup (revise c d x y).1 x).isEmpty
        · rw [if_pos hemp] at hrun
          injection hrun with _ hfalse
          exact absurd hfalse (by simp)
        · rw [if_neg hemp] at hrun
          have hxyn0 := hq (x, y) (List.mem_cons_self _ _)
          have hxny : x ≠ y := hxyn0.1
          have hlt := revise_totalSize_lt c d x y hrev
          have hq2 : ∀ p ∈ rest ++ ((c.neighbors x).erase y).map (fun z => (z, x)),
              p.1 ≠ p.2 ∧ (c.overlaps p.1 p.2).isSome = true := by
            intro p hp
            rcases List.mem_append.1 hp with h2 | h2
            · exact hq p (List.mem_cons_of_mem _ h2)
            · obtain ⟨z, hz, rfl⟩ := List.mem_map.1 h2
              have hzn := List.mem_of_mem_erase hz
              obtain ⟨hzv, hzx, hov⟩ := (mem_neighbors c x z).1 hzn
              exact ⟨hzx, overlaps_isSome_symm c hsym x z hov⟩
          have hinv2 : ∀ u ∈ c.vars, ∀ v ∈ c.neighbors u,
              (u, v) ∈ rest ++ ((c.neighbors x).erase y).map (fun z => (z, x)) ∨
              ArcOK c (revise c d x y).1 u v := by
            intro u hu v hv
            rcases hinv u hu v hv with h | h
            · rcases List.mem_cons.1 h with h2 | h2
              · right
                have hux : u = x := congrArg Prod.fst h2
                have hvy : v = y := congrArg Prod.snd h2
                subst hux
                subst hvy
                exact revise_arcOK c d u v (fun he => hxny he.symm)
              · exact Or.inl (List.mem_append_left _ h2)
            · by_cases hvx : v = x
              · subst hvx
                by_cases huy : u = y
                · subst huy
                  exact Or.inr (revise_preserves_sym c d v u hsym
                    (fun he => hxny he.symm) h)
                · left
                  refine List.mem_append_right _ ?_
                  refine List.mem_map.2 ⟨u, ?_, rfl⟩
                  exact (List.mem_erase_of_ne huy).2 (mem_neighbors_symm c hsym u v hu hv)
              · right
                refine arcOK_shrink c d (revise c d x y).1 u v
                  (revise_dlookup_sub_any c d x y u)
                  (revise_dlookup_ne c d x y v hvx) h
          have hres := ihn (revise c d x y).1
            (rest ++ ((c.neighbors x).erase y).map (fun z => (z, x)))
            (by omega) hq2 hinv2 d2 hrun
          refine ⟨hres.1, fun w hw => ?_⟩
          have hw1 := hres.2 w hw
          by_cases hwx : w = x
          · subst hwx
            rw [hw1] at hemp
            simp at hemp
          · rw [revise_dlookup_ne c d x y w hwx] at hw1
            exact hw1
      · rw [ac3Aux_cons_false c d x y rest (by simpa using hrev)] at hrun
        refine iha (fun q hq2 => hq q (List.mem_cons_of_mem _ hq2)) ?_ hrun
        intro u hu v hv
        rcases hinv u hu v hv with h | h
        · rcases List.mem_cons.1 h with h2 | h2
          · right
            have hux : u = x := congrArg Prod.fst h2
            have hvy : v = y := congrArg Prod.snd h2
            subst hux
            subst hvy
            exact revise_false_arcOK c d u v (by simpa using hrev)
          · exact Or.inl h2
        · exact Or.inr h

/-- Claim C5 (amended): AC-3 terminates (the definition is total); when
it returns `true`, every neighbor arc is consistent — each remaining
word has a distinct supporting word in the neighbor's domain agreeing at
the overlap — and no domain becomes newly empty (a domain empty
afterwards was already empty before); and a revision that empties the
revised domain makes the loop return `false` at once.  The original
claim's "no domain is empty" is refuted by `spec_C5_counterexample`. -/
theorem spec_C5_ac3 (c : Crossword)
    (hsym : ∀ x y i j, c.overlaps x y = some (i, j) → c.overlaps y x = some (j, i)) :
    (∀ d d2, ac3 c d none = (d2, true) →
       (∀ x ∈ c.vars, ∀ y ∈ c.neighbors x, ∀ i j, c.overlaps x y = some (i, j) →
          ∀ wx ∈ dlookup d2 x, ∃ wy ∈ dlookup d2 y,
            charAt wx i = charAt wy j ∧ wx ≠ wy) ∧
       (∀ v, dlookup d2 v = [] → dlookup d v = [])) ∧
    (∀ d x y rest, (revise c d x y).2 = true → dlookup (revise c d x y).1 x = [] →
       ac3Aux c d ((x, y) :: rest) = ((revise c d x y).1, false)) := by
  constructor
  · intro d d2 hrun
    rw [ac3] at hrun
    have hq0 : ∀ p ∈ (d.map Prod.fst).flatMap
        (fun x => (c.neighbors x).map (fun y => (x, y))),
        p.1 ≠ p.2 ∧ (c.overlaps p.1 p.2).isSome = true := by
      intro p hp
      obtain ⟨x, hx, hp2⟩ := List.mem_flatMap.1 hp
      obtain ⟨y, hy, rfl⟩ := List.mem_map.1 hp2
      obtain ⟨hyv, hyx, hov⟩ := (mem_neighbors c x y).1 hy
      exact ⟨fun he => hyx he.symm, hov⟩
    have hinv0 : ∀ u ∈ c.vars, ∀ v ∈ c.neighbors u,
        (u, v) ∈ (d.map Prod.fst).flatMap
          (fun x => (c.neighbors x).map (fun y => (x, y))) ∨ ArcOK c d u v := by
      intro u hu v hv
      by_cases hud : u ∈ d.map Prod.fst
      · exact Or.inl (List.mem_flatMap.2 ⟨u, hud, List.mem_map.2 ⟨v, hv, rfl⟩⟩)
      · right
        intro i j hov wx hwx
        rw [dlookup_eq_nil_of_not_mem d u hud] at hwx
        simp at hwx
    exact ac3Aux_invariant c hsym (totalSize d) d _ (le_refl _) hq0 hinv0 d2 hrun
  · intro d x y rest hrev hemp
    rw [ac3Aux_cons_true c d x y rest hrev, if_pos (by rw [hemp]; rfl)]

/-- Counterexample refuting claim C5 as stated: on `cex5` (one isolated
variable, no words) AC-3 returns `true` while the variable's domain is
empty, because a neighborless variable never appears in the arc queue. -/
theorem spec_C5_counterexample :
    (ac3 cex5 (initDomains cex5) none).2 = true ∧
    dlookup (ac3 cex5 (initDomains cex5) none).1 varV5 = [] := by
  have h : ac3 cex5 (initDomains cex5) none = ([(varV5, [])], true) := by
    rw [ac3]
    exact ac3Aux_no_revision _ _ _ (by decide)
  rw [h]
  exact ⟨rfl, by decide⟩

/-- Witness for the amended C5 on the one-variable instance. -/
theorem spec_C5_witness :
    (∀ x ∈ cw1.vars, ∀ y ∈ cw1.neighbors x, ∀ i j, cw1.overlaps x y = some (i, j) →
       ∀ wx ∈ dlookup (initDomains cw1) x, ∃ wy ∈ dlookup (initDomains cw1) y,
         charAt wx i = charAt wy j ∧ wx ≠ wy) ∧
    (∀ v, dlookup (initDomains cw1) v = [] → dlookup (initDomains cw1) v = []) :=
  (spec_C5_ac3 cw1 (fun x y i j h => by simp [cw1] at h)).1 (initDomains cw1)
    (initDomains cw1)
    (by rw [ac3]; exact ac3Aux_no_revision _ _ _ (by decide))

/-! #### The fuel bound of `backtrack` is irrelevant above the number of
unassigned domain keys, so the depth bound used in `backtrack` and
`solve` is sufficient. -/

theorem acontains_aset_bool (a : Assignment) (x : Variable) (w : Word) (v : Variable) :
    acontains (aset a x w) v = (acontains a v || decide (v = x)) := by
  by_cases hv : v = x
  · subst hv
    simp [acontains, alookup_aset_self]
  · simp [acontains, alookup_aset_ne a x v w hv, hv]

theorem filter_congr_mem {α : Type} (l : List α) (p q : α → Bool)
    (h : ∀ v ∈ l, p v = q v) : l.filter p = l.filter q := by
  induction l with
  | nil => rfl
  | cons a l ih =>
    rw [List.filter_cons, List.filter_cons, h a (List.mem_cons_self a l),
      ih (fun v hv => h v (List.mem_cons_of_mem a hv))]

theorem filter_length_mono {α : Type} (l : List α) (p q : α → Bool)
    (h : ∀ v ∈ l, q v = true → p v = true) :
    (l.filter q).length ≤ (l.filter p).length := by
  induction l with
  | nil => exact le_refl _
  | cons a l ih =>
    have ih2 := ih (fun v hv => h v (List.mem_cons_of_mem a hv))
    rw [List.filter_cons, List.filter_cons]
    cases hq : q a with
    | true =>
      rw [h a (List.mem_cons_self a l) hq]
      simpa using ih2
    | false =>
      cases hp : p a <;> simp <;> omega

theorem length_filter_and_lt {α : Type} [DecidableEq α] (l : List α) (p : α → Bool)
    (x : α) (hx : x ∈ l) (hpx : p x = true) :
    (l.filter (fun v => p v && ! decide (v = x))).length < (l.filter p).length := by
  have hmono : ∀ l2 : List α,
      (l2.filter (fun v => p v && ! decide (v = x))).length ≤ (l2.filter p).length :=
    fun l2 => filter_length_mono l2 p _
      (fun v _ hv => by rw [Bool.and_eq_true] at hv; exact hv.1)
  induction l with
  | nil => simp at hx
  | cons b l ih =>
    rw [List.filter_cons, List.filter_cons]
    by_cases hbx : b = x
    · have hm := hmono l
      simp [hbx, hpx]
      omega
    · rcases List.mem_cons.1 hx with h | h
      · exact absurd h (fun hh => hbx hh.symm)
      · have ih2 := ih h
        cases hpb : p b with
        | false =>
          simp [hpb]
          exact ih2
        | true =>
          simp [hpb, hbx]
          omega

theorem backtrackF_contains_mono (c : Crossword) (d : Domains) :
    ∀ fuel a v, acontains a v = true → acontains (backtrackF c d fuel a).2 v = true := by
  intro fuel
  induction fuel with
  | zero => intro a v hv; exact hv
  | succ fuel ih =>
    intro a v hv
    by_cases hcomp : assignment_complete c a = true
    · rw [show backtrackF c d (fuel + 1) a = (some a, a) from by rw [backtrackF, if_pos hcomp]]
      exact hv
    · cases hsel : select_unassigned_variable c d a with
      | none =>
        rw [show backtrackF c d (fuel + 1) a = (none, a) from by
          rw [backtrackF, if_neg hcomp, hsel]]
        exact hv
      | some x =>
        rw [show backtrackF c d (fuel + 1) a =
            btLoop c (fun a1 => backtrackF c d fuel a1) x (order_domain_values c d x a) a from
          by rw [backtrackF, if_neg hcomp, hsel]]
        have hloop : ∀ vals a2, acontains a2 v = true →
            acontains (btLoop c (fun a1 => backtrackF c d fuel a1) x vals a2).2 v = true := by
          intro vals
          induction vals with
          | nil => intro a2 hv2; exact hv2
          | cons w rest ihv =>
            intro a2 hv2
            have hv1 : acontains (aset a2 x w) v = true := by
              rw [acontains_aset_bool]
              simp [hv2]
            rw [btLoop_cons]
            by_cases hcons : consistent c (aset a2 x w) = true
            · rw [if_pos hcons]
              obtain ⟨⟨r1, a3⟩, hres⟩ : ∃ p, backtrackF c d fuel (aset a2 x w) = p := ⟨_, rfl⟩
              rw [hres]
              have hv3 : acontains a3 v = true := by
                have hmono := ih (aset a2 x w) v hv1
                rw [hres] at hmono
                exact hmono
              cases r1 with
              | some rr => exact hv3
              | none => exact ihv a3 hv3
            · rw [if_neg hcons]
              exact ihv (aset a2 x w) hv1
        exact hloop _ a hv

theorem backtrackF_fuel_irrelevant (c : Crossword) (d : Domains) :
    ∀ f1 f2 a,
      ((d.map Prod.fst).filter (fun v => ! acontains a v)).length < f1 →
      ((d.map Prod.fst).filter (fun v => ! acontains a v)).length < f2 →
      backtrackF c d f1 a = backtrackF c d f2 a := by
  intro f1
  induction f1 with
  | zero =>
    intro f2 a h1 h2
    exact absurd h1 (Nat.not_lt_zero _)
  | succ n1 ih =>
    intro f2 a h1 h2
    cases f2 with
    | zero => exact absurd h2 (Nat.not_lt_zero _)
    | succ n2 =>
      by_cases hcomp : assignment_complete c a = true
      · rw [show backtrackF c d (n1 + 1) a = (some a, a) from by rw [backtrackF, if_pos hcomp],
          show backtrackF c d (n2 + 1) a = (some a, a) from by rw [backtrackF, if_pos hcomp]]
      · cases hsel : select_unassigned_variable c d a with
        | none =>
          rw [show backtrackF c d (n1 + 1) a = (none, a) from by
              rw [backtrackF, if_neg hcomp, hsel],
            show backtrackF c d (n2 + 1) a = (none, a) from by
              rw [backtrackF, if_neg hcomp, hsel]]
        | some x =>
          have hx := select_some_unassigned c d a x hsel
          rw [show backtrackF c d (n1 + 1) a =
              btLoop c (fun a1 => backtrackF c d n1 a1) x (order_domain_values c d x a) a from
              by rw [backtrackF, if_neg hcomp, hsel],
            show backtrackF c d (n2 + 1) a =
              btLoop c (fun a1 => backtrackF c d n2 a1) x (order_domain_values c d x a) a from
              by rw [backtrackF, if_neg hcomp, hsel]]
          have hxfil : x ∈ (d.map Prod.fst).filter (fun v => ! acontains a v) :=
            List.mem_filter.2 ⟨hx.1, by simp [hx.2]⟩
          have hstrict :
              ((d.map Prod.fst).filter
                (fun v => (! acontains a v) && ! decide (v = x))).length <
              ((d.map Prod.fst).filter (fun v => ! acontains a v)).length :=
            length_filter_and_lt (d.map Prod.fst) (fun v => ! acontains a v) x hx.1
              (by simp [hx.2])
          have hsetfil : ∀ (a2 : Assignment) (w : Word),
              (d.map Prod.fst).filter (fun v => ! acontains (aset a2 x w) v) =
              (d.map Prod.fst).filter (fun v => (! acontains a2 v) && ! decide (v = x)) := by
            intro a2 w
            refine filter_congr_mem _ _ _ (fun v _ => ?_)
            rw [acontains_aset_bool]
            rw [Bool.not_or]
          have hloop : ∀ vals a2,
              ((d.map Prod.fst).filter
                (fun v => (! acontains a2 v) && ! decide (v = x))).length ≤
              ((d.map Prod.fst).filter
                (fun v => (! acontains a v) && ! decide (v = x))).length →
              btLoop c (fun a1 => backtrackF c d n1 a1) x vals a2 =
              btLoop c (fun a1 => backtrackF c d n2 a1) x vals a2 := by
            intro vals
            induction vals with
            | nil => intro a2 _; rfl
            | cons w rest ihv =>
              intro a2 hle
              rw [btLoop_cons, btLoop_cons]
              by_cases hcons : consistent c (aset a2 x w) = true
              · rw [if_pos hcons, if_pos hcons]
                have hchild : backtrackF c d n1 (aset a2 x w) =
                    backtrackF c d n2 (aset a2 x w) := by
                  apply ih
                  · rw [hsetfil a2 w]
                    omega
                  · rw [hsetfil a2 w]
                    omega
                rw [hchild]
                obtain ⟨⟨r1, a3⟩, hres⟩ :
                    ∃ p, backtrackF c d n2 (aset a2 x w) = p := ⟨_, rfl⟩
                rw [hres]
                cases r1 with
                | some rr => rfl
                | none =>
                  apply ihv
                  have hmono3 : ∀ v, acontains (aset a2 x w) v = true →
                      acontains a3 v = true := by
                    intro v hv
                    have hk := backtrackF_contains_mono c d n2 (aset a2 x w) v hv
                    rw [hres] at hk
                    exact hk
                  have hstep : ((d.map Prod.fst).filter
                      (fun v => (! acontains a3 v) && ! decide (v = x))).length ≤
                      ((d.map Prod.fst).filter
                        (fun v => (! acontains (aset a2 x w) v) && ! decide (v = x))).length := by
                    refine filter_length_mono _ _ _ (fun v _ hv => ?_)
                    rw [Bool.and_eq_true] at hv ⊢
                    refine ⟨?_, hv.2⟩
                    cases hc2 : acontains (aset a2 x w) v with
                    | false => rfl
                    | true =>
                      rw [hmono3 v hc2] at hv
                      exact absurd hv.1 (by simp)
                  have hsame : ((d.map Prod.fst).filter
                      (fun v => (! acontains (aset a2 x w) v) && ! decide (v = x))).length =
                      ((d.map Prod.fst).filter
                        (fun v => (! acontains a2 v) && ! decide (v = x))).length := by
                    congr 1
                    refine filter_congr_mem _ _ _ (fun v _ => ?_)
                    rw [acontains_aset_bool, Bool.not_or]
                    cases hd2 : decide (v = x) with
                    | false => simp
                    | true => simp
                  omega
              · rw [if_neg hcons, if_neg hcons]
                apply ihv
                have hsame : ((d.map Prod.fst).filter
                    (fun v => (! acontains (aset a2 x w) v) && ! decide (v = x))).length =
                    ((d.map Prod.fst).filter
                      (fun v => (! acontains a2 v) && ! decide (v = x))).length := by
                  congr 1
                  refine filter_congr_mem _ _ _ (fun v _ => ?_)
                  rw [acontains_aset_bool, Bool.not_or]
                  cases hd2 : decide (v = x) with
                  | false => simp
                  | true => simp
                omega
          apply hloop
          exact le_refl _

/-- The fuel supplied by `backtrack` (one more than the number of domain
entries) exceeds the number of unassigned domain keys, so `backtrack`
computes the same result as `backtrackF` at any fuel above that number:
the modelled recursion depth bound is sufficient. -/
theorem backtrack_eq_any_fuel (c : Crossword) (d : Domains) (a : Assignment) (fuel : Nat)
    (h : ((d.map Prod.fst).filter (fun v => ! acontains a v)).length < fuel) :
    backtrack c d a = backtrackF c d fuel a := by
  apply backtrackF_fuel_irrelevant
  · have h1 := List.length_filter_le (fun v => ! acontains a v) (d.map Prod.fst)
    have h2 : (d.map Prod.fst).length = d.length := List.length_map d Prod.fst
    omega
  · exact h

end CrosswordCSP
